import Mathlib

/-!
Formal model of the certml data-poisoning certification code.

Source files modelled:
* src/certml/certify/poison/upper_bound.py  (class UpperBound: certify, cert_rda,
  minimize_over_feasible_set)
* src/certml/legacy/upper_bounds.py  (hinge_loss, hinge_grad,
  generate_upper_and_lower_bounds, sample_lower_bound_attack,
  get_projection_matrix)

Modelling conventions:
* numpy float64 arithmetic is modelled by exact rational arithmetic (ℚ);
  vectors are lists of rationals, data matrices are lists of rows.
* np.sqrt is an external irrational-valued primitive; it is abstracted as the
  configuration field sqrtF (the certifier claims hold for every instantiation).
  np.linalg.norm(v) ** 2 is modelled directly as the exact dot product of v
  with itself, which is what the expression computes in exact arithmetic.
* the cvxpy solve inside Minimizer.minimize_over_feasible_set is the external
  generic convex-solve service of the design; it is abstracted as the
  configuration field oracle.  For the legacy free function the oracle is
  total; for the UpperBound method it is Option-valued, a none result standing
  for a solver exception propagating out of prob.solve.
* the iteration order of the Python expression set(Y_train) is an unspecified
  implementation detail; it is modelled as the explicit list field labels.
* np.random.choice is an external randomness source; it is a function
  parameter of the sampler, constrained only by its documented contract.
-/

namespace CertML

/-- Componentwise sum of two rational vectors (numpy elementwise +). -/
def vadd (x y : List ℚ) : List ℚ := List.zipWith (· + ·) x y

/-- Componentwise difference of two rational vectors (numpy elementwise -). -/
def vsub (x y : List ℚ) : List ℚ := List.zipWith (· - ·) x y

/-- Scalar times vector (numpy scalar broadcasting). -/
def vsmul (c : ℚ) (x : List ℚ) : List ℚ := x.map (fun a => c * a)

/-- Vector divided componentwise by a scalar (numpy v / c). -/
def vdiv (x : List ℚ) (c : ℚ) : List ℚ := x.map (fun a => a / c)

/-- The all-zeros vector np.zeros(d). -/
def vzero (d : ℕ) : List ℚ := List.replicate d 0

/-- Dot product of two rational vectors (numpy x.dot(y)). -/
def dot (x y : List ℚ) : ℚ := (List.zipWith (· * ·) x y).sum

/-- Squared euclidean norm: the exact value of np.linalg.norm(x) ** 2. -/
def normSq (x : List ℚ) : ℚ := dot x x

/-- hinge_loss from src/certml/legacy/upper_bounds.py (sample_weights = None):
np.mean(np.maximum(1 - Y * (X.dot(w) + b), 0)). -/
def hinge_loss (w : List ℚ) (b : ℚ) (X : List (List ℚ)) (Y : List ℚ) : ℚ :=
  ((X.zip Y).map (fun p => max (1 - p.2 * (dot p.1 w + b)) 0)).sum / (X.length : ℚ)

/-- hinge_loss evaluated on a single point, as in the calls
hinge_loss(w, b, worst_x_b, worst_y_b): numpy broadcasting makes the mean of
the single entry the entry itself. -/
def hinge_loss_single (w : List ℚ) (b : ℚ) (x : List ℚ) (y : ℚ) : ℚ :=
  max (1 - y * (dot x w + b)) 0

/-- hinge_grad from src/certml/legacy/upper_bounds.py (dense branch):
sum of -y_i * x_i over the margin violators divided by the number of rows,
and the same for the bias component.  The gradient has the feature dimension
X.shape[1], which equals the length of w at every call site. -/
def hinge_grad (w : List ℚ) (b : ℚ) (X : List (List ℚ)) (Y : List ℚ) :
    List ℚ × ℚ :=
  let sv := (X.zip Y).filter (fun p => decide (p.2 * (dot p.1 w + b) < 1))
  (vdiv (sv.foldl (fun acc p => vadd acc (vsmul (-p.2) p.1)) (vzero w.length))
      (X.length : ℚ),
   (sv.foldl (fun acc p => acc + (-p.2)) 0) / (X.length : ℚ))

/-- Clean accuracy np.mean((Y * (X.dot(w) + b)) > 0): the fraction of clean
points with strictly positive margin. -/
def goodAcc (w : List ℚ) (b : ℚ) (X : List (List ℚ)) (Y : List ℚ) : ℚ :=
  (((X.zip Y).filter (fun p => decide (0 < p.2 * (dot p.1 w + b)))).length : ℚ) /
    (X.length : ℚ)

/-- The best-bound snapshot written by the update block of the loop
(lines 521-530 of legacy/upper_bounds.py): total loss, clean loss,
adversarial loss, squared parameter norm, clean accuracy, adversarial
accuracy. -/
structure BestRecord where
  upper_bound : ℚ
  good_loss : ℚ
  bad_loss : ℚ
  params_norm_sq : ℚ
  good_acc : ℚ
  bad_acc : ℚ
deriving DecidableEq, Repr

/-- Configuration of one run of the legacy free function
generate_upper_and_lower_bounds.  d is the feature dimension X_train.shape[1].
labels is the enumeration order of set(Y_train); oracle is the injected
Minimizer (its cvxpy solve together with the fixed per-class geometry);
sqrtF models np.sqrt. -/
structure RDAConfig where
  d : ℕ
  X : List (List ℚ)
  Y : List ℚ
  labels : List ℚ
  norm_sq_constraint : ℚ
  epsilon : ℚ
  max_iter : ℕ
  learning_rate : ℚ
  init_w : List ℚ
  init_b : ℚ
  oracle : ℚ → List ℚ → List ℚ
  sqrtF : ℚ → ℚ

/-- Local state of the legacy loop.  best_upper_bound is the plain local
variable initialised to 10000; best collects the other best_upper_* locals,
which are unbound (none) until the first improving iteration. -/
structure LegacyState where
  sum_of_grads_w : List ℚ
  sum_of_grads_b : ℚ
  current_lambda : ℚ
  w : List ℚ
  b : ℚ
  best_upper_bound : ℚ
  best : Option BestRecord
  x_bs : List (List ℚ)
  y_bs : List ℚ
deriving DecidableEq, Repr

/-- The worst-margin scan of the loop body (lines 472-488 of
legacy/upper_bounds.py): walk the label enumeration, solve for each label,
and keep the incumbent unless the new margin is strictly smaller.  The
accumulator holds (worst_margin, worst_y_b, worst_x_b); none models the
initial worst_margin = None. -/
def selectWorst (oracle : ℚ → List ℚ → List ℚ) (w : List ℚ) (b : ℚ) :
    List ℚ → Option (ℚ × ℚ × List ℚ) → Option (ℚ × ℚ × List ℚ)
  | [], acc => acc
  | y :: ys, acc =>
    let x := oracle y w
    let m := y * (dot w x + b)
    match acc with
    | none => selectWorst oracle w b ys (some (m, y, x))
    | some (wm, wy, wx) =>
      selectWorst oracle w b ys
        (if m < wm then some (m, y, x) else some (wm, wy, wx))

/-- One iteration of the legacy loop (body of the for-loop of
generate_upper_and_lower_bounds).  If the label enumeration is empty the
Python code raises (worst_margin stays None and the comparison with 1 is a
TypeError); that configuration error is modelled by leaving the state
unchanged, and the theorems about valid runs assume labels is nonempty. -/
def legacyStep (cfg : RDAConfig) (t : ℕ) (s : LegacyState) : LegacyState :=
  let grads := hinge_grad s.w s.b cfg.X cfg.Y
  match selectWorst cfg.oracle s.w s.b cfg.labels none with
  | none => s
  | some (worst_margin, worst_y, worst_x) =>
    let grad_w := if worst_margin < 1 then
        vsub grads.1 (vsmul (cfg.epsilon * worst_y) worst_x) else grads.1
    let grad_b := if worst_margin < 1 then
        grads.2 - cfg.epsilon * worst_y else grads.2
    let bad_loss := hinge_loss_single s.w s.b worst_x worst_y
    let x_bs := s.x_bs.set t worst_x
    let y_bs := s.y_bs.set t worst_y
    let good_loss := hinge_loss s.w s.b cfg.X cfg.Y
    let params_norm_sq := normSq s.w + s.b ^ 2
    let total_loss := good_loss + cfg.epsilon * bad_loss
    let bests :=
      if s.best_upper_bound > total_loss then
        (total_loss,
         some { upper_bound := total_loss, good_loss := good_loss,
                bad_loss := bad_loss, params_norm_sq := params_norm_sq,
                good_acc := goodAcc s.w s.b cfg.X cfg.Y,
                bad_acc := if worst_margin > 0 then (1 : ℚ) else 0 })
      else (s.best_upper_bound, s.best)
    let sum_w := vsub s.sum_of_grads_w grad_w
    let sum_b := s.sum_of_grads_b - grad_b
    let candidate_lambda :=
      cfg.sqrtF (normSq sum_w + sum_b ^ 2) / cfg.sqrtF cfg.norm_sq_constraint
    let lam := if candidate_lambda > s.current_lambda then candidate_lambda
      else s.current_lambda
    { sum_of_grads_w := sum_w, sum_of_grads_b := sum_b, current_lambda := lam,
      w := vdiv sum_w lam, b := sum_b / lam,
      best_upper_bound := bests.1, best := bests.2,
      x_bs := x_bs, y_bs := y_bs }

/-- Initial state of the legacy loop (lines 424-446). -/
def legacyInit (cfg : RDAConfig) : LegacyState :=
  { sum_of_grads_w := vzero cfg.d, sum_of_grads_b := 0,
    current_lambda := 1 / cfg.learning_rate,
    w := cfg.init_w, b := cfg.init_b,
    best_upper_bound := 10000, best := none,
    x_bs := List.replicate cfg.max_iter (vzero cfg.d),
    y_bs := List.replicate cfg.max_iter 0 }

/-- The legacy loop run for n iterations (iteration indices 0, 1, ..., n-1). -/
def legacyRunN (cfg : RDAConfig) (n : ℕ) : LegacyState :=
  (List.range n).foldl (fun s t => legacyStep cfg t s) (legacyInit cfg)

/-- The full legacy loop: max_iter iterations. -/
def legacyRun (cfg : RDAConfig) : LegacyState := legacyRunN cfg cfg.max_iter

/-- Configuration of the UpperBound object of
src/certml/certify/poison/upper_bound.py.  The pipeline capabilities are the
hinge classifier of this repository and the defense geometry folded into the
Option-valued oracle (cvxpy solve; none = solver exception).  epsilon is not
part of the object: it is the argument of cert_rda. -/
structure CertConfig where
  d : ℕ
  X : List (List ℚ)
  Y : List ℚ
  labels : List ℚ
  norm_sq_constraint : ℚ
  max_iter : ℕ
  learning_rate : ℚ
  oracle : ℚ → List ℚ → Option (List ℚ)
  sqrtF : ℚ → ℚ

/-- The mutable attributes of the UpperBound object (self.best_upper_* and
self.x_c / self.y_c), all initialised to Python None. -/
structure SelfState where
  best_upper_bound : Option ℚ
  best_upper_good_loss : Option ℚ
  best_upper_bad_loss : Option ℚ
  best_upper_params_norm_sq : Option ℚ
  best_upper_good_acc : Option ℚ
  best_upper_bad_acc : Option ℚ
  x_c : Option (List (List ℚ))
  y_c : Option (List ℚ)
deriving DecidableEq, Repr

/-- The freshly constructed UpperBound object state (constructor lines
64-72: every tracked attribute is None). -/
def selfInit : SelfState :=
  { best_upper_bound := none, best_upper_good_loss := none,
    best_upper_bad_loss := none, best_upper_params_norm_sq := none,
    best_upper_good_acc := none, best_upper_bad_acc := none,
    x_c := none, y_c := none }

/-- Local (per-call) state of cert_rda.  best_upper_bound_local is the local
variable best_upper_bound initialised to 10000; in upper_bound.py the update
block assigns only the self.best_upper_* attributes and never reassigns this
local, so it stays at its initial value for the whole run. -/
structure CertState where
  sum_of_grads_w : List ℚ
  sum_of_grads_b : ℚ
  current_lambda : ℚ
  w : List ℚ
  b : ℚ
  best_upper_bound_local : ℚ
  x_bs : List (List ℚ)
  y_bs : List ℚ
deriving DecidableEq, Repr

/-- The worst-margin scan of cert_rda (lines 155-165 of upper_bound.py).
A none from the oracle models an exception from prob.solve, which aborts the
whole scan; an empty label list leaves worst_margin at None, which also
aborts (the later comparison worst_margin < 1 is a Python TypeError). -/
def certSelect (oracle : ℚ → List ℚ → Option (List ℚ)) (w : List ℚ) (b : ℚ) :
    List ℚ → Option (ℚ × ℚ × List ℚ) → Option (ℚ × ℚ × List ℚ)
  | [], acc => acc
  | y :: ys, acc =>
    match oracle y w with
    | none => none
    | some x =>
      let m := y * (dot w x + b)
      match acc with
      | none => certSelect oracle w b ys (some (m, y, x))
      | some (wm, wy, wx) =>
        certSelect oracle w b ys
          (if m < wm then some (m, y, x) else some (wm, wy, wx))

/-- One iteration of cert_rda (loop body, lines 135-225 of upper_bound.py).
none models the iteration raising an exception.  Note two faithful
differences from the legacy loop: the comparison uses the never-updated
local sentinel, and the improving snapshot is written to the object
attributes (self.best_upper_*), not to locals. -/
def certStep (cfg : CertConfig) (ε : ℚ) (t : ℕ) (self : SelfState)
    (rs : CertState) : Option (SelfState × CertState) :=
  let grads := hinge_grad rs.w rs.b cfg.X cfg.Y
  match certSelect cfg.oracle rs.w rs.b cfg.labels none with
  | none => none
  | some (worst_margin, worst_y, worst_x) =>
    let grad_w := if worst_margin < 1 then
        vsub grads.1 (vsmul (ε * worst_y) worst_x) else grads.1
    let grad_b := if worst_margin < 1 then
        grads.2 - ε * worst_y else grads.2
    let bad_loss := hinge_loss_single rs.w rs.b worst_x worst_y
    let x_bs := rs.x_bs.set t worst_x
    let y_bs := rs.y_bs.set t worst_y
    let good_loss := hinge_loss rs.w rs.b cfg.X cfg.Y
    let params_norm_sq := normSq rs.w + rs.b ^ 2
    let total_loss := good_loss + ε * bad_loss
    let self2 :=
      if rs.best_upper_bound_local > total_loss then
        { self with
          best_upper_bound := some total_loss,
          best_upper_good_loss := some good_loss,
          best_upper_bad_loss := some bad_loss,
          best_upper_params_norm_sq := some params_norm_sq,
          best_upper_good_acc := some (goodAcc rs.w rs.b cfg.X cfg.Y),
          best_upper_bad_acc := some (if worst_margin > 0 then (1 : ℚ) else 0) }
      else self
    let sum_w := vsub rs.sum_of_grads_w grad_w
    let sum_b := rs.sum_of_grads_b - grad_b
    let candidate_lambda :=
      cfg.sqrtF (normSq sum_w + sum_b ^ 2) / cfg.sqrtF cfg.norm_sq_constraint
    let lam := if candidate_lambda > rs.current_lambda then candidate_lambda
      else rs.current_lambda
    some (self2,
      { sum_of_grads_w := sum_w, sum_of_grads_b := sum_b,
        current_lambda := lam, w := vdiv sum_w lam, b := sum_b / lam,
        best_upper_bound_local := rs.best_upper_bound_local,
        x_bs := x_bs, y_bs := y_bs })

/-- Initial per-call state of cert_rda (lines 107-129; self.init_w is
np.zeros_like of the classifier coefficients and self.init_b is 0). -/
def certInit (cfg : CertConfig) : CertState :=
  { sum_of_grads_w := vzero cfg.d, sum_of_grads_b := 0,
    current_lambda := 1 / cfg.learning_rate,
    w := vzero cfg.d, b := 0,
    best_upper_bound_local := 10000,
    x_bs := List.replicate cfg.max_iter (vzero cfg.d),
    y_bs := List.replicate cfg.max_iter 0 }

/-- Driver of cert_rda iterations over a list of iteration indices.  An
exception in an iteration aborts the run; the object state keeps whatever
mutations earlier iterations made. -/
def certGo (cfg : CertConfig) (ε : ℚ) :
    List ℕ → SelfState × CertState → SelfState × Option CertState
  | [], p => (p.1, some p.2)
  | t :: ts, p =>
    match certStep cfg ε t p.1 p.2 with
    | none => (p.1, none)
    | some p2 => certGo cfg ε ts p2

/-- cert_rda(epsilon): run max_iter iterations; on completion store the
candidate attack points in self.x_c / self.y_c and return the triple
(self.best_upper_bound, self.best_upper_good_acc, self.best_upper_bad_loss)
exactly as line 231 of upper_bound.py does.  none models the call raising. -/
def cert_rda (cfg : CertConfig) (ε : ℚ) (self : SelfState) :
    SelfState × Option (Option ℚ × Option ℚ × Option ℚ) :=
  match certGo cfg ε (List.range cfg.max_iter) (self, certInit cfg) with
  | (s, none) => (s, none)
  | (s, some rs) =>
    let s2 := { s with x_c := some rs.x_bs, y_c := some rs.y_bs }
    (s2, some (s2.best_upper_bound, s2.best_upper_good_acc,
      s2.best_upper_bad_loss))

/-- certify(epsilons): one cert_rda call per epsilon on the same object,
collecting the returned triples in order (lines 91-102 of upper_bound.py). -/
def certify (cfg : CertConfig) :
    List ℚ → SelfState →
      SelfState × Option (List (Option ℚ × Option ℚ × Option ℚ))
  | [], self => (self, some [])
  | ε :: rest, self =>
    match cert_rda cfg ε self with
    | (s, none) => (s, none)
    | (s, some tri) =>
      match certify cfg rest s with
      | (s2, none) => (s2, none)
      | (s2, some l) => (s2, some (tri :: l))

/-- Margin of the candidate attack point the oracle produces for label y at
weights w and bias b: y_b * (w.dot(x_b) + b) with x_b the solve result. -/
def marginOf (o : ℚ → List ℚ → List ℚ) (w : List ℚ) (b y : ℚ) : ℚ :=
  y * (dot w (o y w) + b)

/-- Rounding of np.round on a scalar: round half to even. -/
def npRound (q : ℚ) : ℤ :=
  let f := ⌊q⌋
  let r := q - (f : ℚ)
  if r < 1 / 2 then f
  else if (1 : ℚ) / 2 < r then f + 1
  else if 2 ∣ f then f else f + 1

/-- The idx_to_sample list of sample_lower_bound_attack: the drawn indices
shifted past the first num_iter_to_throw_out iterations. -/
def chosenIdx (choice : ℕ → ℕ → List ℕ) (x_bs_len throw k : ℕ) : List ℕ :=
  (choice (x_bs_len - throw) k).map (fun i => i + throw)

/-- sample_lower_bound_attack from src/certml/legacy/upper_bounds.py.
np.random.choice(num_iter, size, replace=False) is abstracted as the
function parameter choice (its contract - size many distinct draws below
num_iter - is a hypothesis of the theorem about this function); the drawn
indices are shifted by num_iter_to_throw_out, the poisoned rows are appended
after the clean rows, and the two slices delimit them.  A Python slice
slice(a, b) is modelled as the pair (a, b). -/
def sample_lower_bound_attack (choice : ℕ → ℕ → List ℕ)
    (X_train : List (List ℚ)) (Y_train : List ℚ)
    (x_bs : List (List ℚ)) (y_bs : List ℚ)
    (epsilon : ℚ) (num_iter_to_throw_out : ℕ) :
    List (List ℚ) × List ℚ × (ℕ × ℕ) × (ℕ × ℕ) :=
  let num_iter := x_bs.length - num_iter_to_throw_out
  let k := (npRound (epsilon * (X_train.length : ℚ))).toNat
  let idx_to_sample := (choice num_iter k).map
    (fun i => i + num_iter_to_throw_out)
  let X_modified := X_train ++ idx_to_sample.map (fun i => x_bs.getD i [])
  let Y_modified := Y_train ++ idx_to_sample.map (fun i => y_bs.getD i 0)
  (X_modified, Y_modified, (0, X_train.length), (X_train.length,
    X_modified.length))

/-! Concrete instances used to evaluate the code on explicit inputs.
The oracle of cfgC1 behaves like a genuine feasible-set maximizer for a
sphere of radius 10 around the origin: it returns the feasible point most
anti-aligned with the current weight vector. -/

/-- One-feature pipeline, one clean point (1, label 1), solver returning
-10 * w, exact square root data (5 = sqrt 25), two iterations. -/
def cfgC1 : CertConfig :=
  { d := 1, X := [[1]], Y := [1], labels := [1],
    norm_sq_constraint := 25, max_iter := 2, learning_rate := 10,
    oracle := fun _ w => some (w.map (fun c => -10 * c)),
    sqrtF := fun q => q }

/-- The same run expressed through the legacy free function. -/
def cfgC1L : RDAConfig :=
  { d := 1, X := [[1]], Y := [1], labels := [1],
    norm_sq_constraint := 25, epsilon := 1, max_iter := 2,
    learning_rate := 10, init_w := [0], init_b := 0,
    oracle := fun _ w => w.map (fun c => -10 * c),
    sqrtF := fun q => q }

/-- Single-iteration variant of cfgC1. -/
def cfgC2 : CertConfig := { cfgC1 with max_iter := 1 }

/-- cfgC1L with epsilon = 0. -/
def cfgC6L : RDAConfig := { cfgC1L with epsilon := 0 }

/-- Like cfgC1 but the solver raises whenever the weight vector has moved
away from zero, so iteration 1 of cert_rda aborts. -/
def cfgC7a : CertConfig :=
  { cfgC1 with oracle := fun _ w => if w = [0] then some [0] else none }

/-- Single-iteration variant whose every total loss stays at or above the
10000 sentinel, so the run completes without ever writing the record. -/
def cfgC7b : CertConfig :=
  { cfgC1 with max_iter := 1, oracle := fun _ _ => some [0] }

/-! Model of get_projection_matrix from src/certml/legacy/upper_bounds.py.
The routine works on float vectors whose orthonormalization is irrational,
so this part of the development lives over ℝ.  scipy.linalg.orth(M.T).T
(an orthonormal basis of the row space, one row per nonzero singular value)
is modelled by exact Gram-Schmidt with normalization, dropping exactly-zero
residuals; np.random.normal is modelled by an arbitrary stream of vectors,
one per loop pass. -/

/-- Real vectors of dimension n. -/
def Rvec (n : ℕ) : Type := Fin n → ℝ

/-- Componentwise sum of real vectors. -/
def radd {n : ℕ} (u v : Rvec n) : Rvec n := fun i => u i + v i

/-- The zero vector. -/
def rzero {n : ℕ} : Rvec n := fun _ => 0

/-- Componentwise difference of real vectors. -/
def rsub {n : ℕ} (u v : Rvec n) : Rvec n := fun i => u i - v i

/-- Scalar multiple of a real vector. -/
def rsmul {n : ℕ} (c : ℝ) (u : Rvec n) : Rvec n := fun i => c * u i

/-- Euclidean inner product of real vectors. -/
def rdot {n : ℕ} (u v : Rvec n) : ℝ := ∑ i, u i * v i

/-- Sum of a list of real vectors. -/
def vsumR {n : ℕ} (l : List (Rvec n)) : Rvec n := l.foldr radd rzero

/-- Gram-Schmidt residual of v against an already orthonormal list acc. -/
def gsOrth {n : ℕ} (acc : List (Rvec n)) (v : Rvec n) : Rvec n :=
  rsub v (vsumR (acc.map (fun p => rsmul (rdot p v) p)))

/-- Normalization to unit euclidean length. -/
noncomputable def rnormalize {n : ℕ} (u : Rvec n) : Rvec n :=
  rsmul (Real.sqrt (rdot u u))⁻¹ u

open scoped Classical in
/-- One Gram-Schmidt step: keep the normalized residual unless it vanishes
(the new row is linearly dependent on the previous ones). -/
noncomputable def orthAppend {n : ℕ} (acc : List (Rvec n)) (v : Rvec n) :
    List (Rvec n) :=
  if gsOrth acc v = rzero then acc else acc ++ [rnormalize (gsOrth acc v)]

/-- Model of scipy.linalg.orth on the rows of a matrix: an orthonormal list
spanning the rows, one element per independent row. -/
noncomputable def orthModel {n : ℕ} (vs : List (Rvec n)) : List (Rvec n) :=
  vs.foldl orthAppend []

/-- The while-loop of get_projection_matrix: while P has fewer than 3 rows,
append the next random row and re-orthonormalize.  fuel bounds the number
of passes; none means the loop is still running after fuel passes. -/
noncomputable def gpGo {n : ℕ} (rand : ℕ → Rvec n) :
    ℕ → ℕ → List (Rvec n) → Option (List (Rvec n))
  | 0, _, P => if 3 ≤ P.length then some P else none
  | fuel + 1, k, P =>
    if 3 ≤ P.length then some P
    else gpGo rand fuel (k + 1) (orthModel (P ++ [rand k]))

/-- get_projection_matrix(w, centroid, centroid_vec): orthonormalize the
three stacked vectors, then pad with random rows until there are 3. -/
noncomputable def get_projection_matrix {n : ℕ} (rand : ℕ → Rvec n)
    (fuel : ℕ) (w centroid centroid_vec : Rvec n) : Option (List (Rvec n)) :=
  gpGo rand fuel 0 (orthModel [w, centroid, centroid_vec])

/-- The rows of P are mutually orthogonal unit vectors. -/
def OrthoRows {n : ℕ} (P : List (Rvec n)) : Prop :=
  (∀ u ∈ P, rdot u u = 1) ∧ P.Pairwise (fun u v => rdot u v = 0)

/-- The padding loop never returns on the all-zero degenerate input in
dimension 1, whatever the fuel: the universal termination asserted by the claim fails. -/
def gpNeverReturns : Prop :=
  ∀ fuel, get_projection_matrix (fun _ => (rzero : Rvec 1)) fuel
    rzero rzero rzero = none

/-- First standard basis vector of ℝ^3. -/
def e0R : Rvec 3 := fun j => if j.val = 0 then 1 else 0

/-- Second standard basis vector of ℝ^3. -/
def e1R : Rvec 3 := fun j => if j.val = 1 then 1 else 0

/-- Third standard basis vector of ℝ^3. -/
def e2R : Rvec 3 := fun j => if j.val = 2 then 1 else 0

end CertML

namespace CertML

theorem legacyRunN_succ (cfg : RDAConfig) (n : ℕ) :
    legacyRunN cfg (n + 1) = legacyStep cfg n (legacyRunN cfg n) := by
  simp [legacyRunN, List.range_succ]


theorem selectWorst_acc_some (o : ℚ → List ℚ → List ℚ) (w : List ℚ) (b : ℚ) :
    ∀ (ls : List ℚ) (trip : ℚ × ℚ × List ℚ),
      ∃ trip2, selectWorst o w b ls (some trip) = some trip2 := by
  intro ls
  induction ls with
  | nil => exact fun trip => ⟨trip, rfl⟩
  | cons y ys ih =>
    rintro ⟨m0, y0, x0⟩
    simp only [selectWorst]
    split
    · exact ih _
    · exact ih _

theorem selectWorst_cons_some (o : ℚ → List ℚ → List ℚ) (w : List ℚ) (b : ℚ)
    (y : ℚ) (ys : List ℚ) :
    ∃ trip, selectWorst o w b (y :: ys) none = some trip := by
  simp only [selectWorst]
  exact selectWorst_acc_some o w b ys _

theorem selectWorst_go_spec (o : ℚ → List ℚ → List ℚ) (w : List ℚ) (b : ℚ) :
    ∀ (ls : List ℚ) (m0 y0 : ℚ) (x0 : List ℚ),
      ∃ m y x, selectWorst o w b ls (some (m0, y0, x0)) = some (m, y, x) ∧
        m ≤ m0 ∧ (∀ z ∈ ls, m ≤ marginOf o w b z) ∧
        ((m = m0 ∧ y = y0 ∧ x = x0 ∧ ∀ z ∈ ls, m0 ≤ marginOf o w b z) ∨
         (∃ pre post, ls = pre ++ y :: post ∧ m = marginOf o w b y ∧
           x = o y w ∧ m < m0 ∧ ∀ z ∈ pre, m < marginOf o w b z)) := by
  intro ls
  induction ls with
  | nil =>
    intro m0 y0 x0
    exact ⟨m0, y0, x0, rfl, le_refl _, by simp,
      Or.inl ⟨rfl, rfl, rfl, by simp⟩⟩
  | cons z zs ih =>
    intro m0 y0 x0
    by_cases h : z * (dot w (o z w) + b) < m0
    · simp only [selectWorst, if_pos h]
      obtain ⟨m, y, x, heq, hle, hall, hcase⟩ := ih (z * (dot w (o z w) + b)) z (o z w)
      refine ⟨m, y, x, heq, le_trans hle (le_of_lt h), ?_, ?_⟩
      · intro t ht
        rcases List.mem_cons.mp ht with h1 | h1
        · subst h1; exact le_trans hle (le_refl _)
        · exact hall t h1
      · rcases hcase with ⟨hm, hy, hx, hall0⟩ | ⟨pre, post, hls, hm, hx, hlt, hpre⟩
        · subst hy
          refine Or.inr ⟨[], zs, rfl, hm, hx, ?_, by simp⟩
          rw [hm]; exact h
        · refine Or.inr ⟨z :: pre, post, by rw [hls]; rfl, hm, hx,
            lt_trans hlt h, ?_⟩
          intro t ht
          rcases List.mem_cons.mp ht with h1 | h1
          · subst h1; exact lt_of_lt_of_le hlt (le_refl _)
          · exact hpre t h1
    · have h2 : m0 ≤ z * (dot w (o z w) + b) := not_lt.mp h
      simp only [selectWorst, if_neg h]
      obtain ⟨m, y, x, heq, hle, hall, hcase⟩ := ih m0 y0 x0
      refine ⟨m, y, x, heq, hle, ?_, ?_⟩
      · intro t ht
        rcases List.mem_cons.mp ht with h1 | h1
        · subst h1; exact le_trans hle h2
        · exact hall t h1
      · rcases hcase with ⟨hm, hy, hx, hall0⟩ | ⟨pre, post, hls, hm, hx, hlt, hpre⟩
        · refine Or.inl ⟨hm, hy, hx, ?_⟩
          intro t ht
          rcases List.mem_cons.mp ht with h1 | h1
          · subst h1; exact h2
          · exact hall0 t h1
        · refine Or.inr ⟨z :: pre, post, by rw [hls]; rfl, hm, hx, hlt, ?_⟩
          intro t ht
          rcases List.mem_cons.mp ht with h1 | h1
          · subst h1; exact lt_of_lt_of_le hlt h2
          · exact hpre t h1

/-- C5: among the per-label candidates, the selected pair attains the minimal
margin over the whole label enumeration, is the candidate solved for its own
label, and is the first label attaining that minimum: every earlier label in
the enumeration has a strictly larger margin (a later candidate replaces the
incumbent only when strictly smaller). -/
theorem C5_first_minimal_margin (o : ℚ → List ℚ → List ℚ) (w : List ℚ)
    (b : ℚ) (labels : List ℚ) (m y : ℚ) (x : List ℚ)
    (hsel : selectWorst o w b labels none = some (m, y, x)) :
    (∀ z ∈ labels, m ≤ marginOf o w b z) ∧ m = marginOf o w b y ∧
      x = o y w ∧
      ∃ pre post, labels = pre ++ y :: post ∧
        ∀ z ∈ pre, m < marginOf o w b z := by
  cases labels with
  | nil => simp [selectWorst] at hsel
  | cons l ls =>
    simp only [selectWorst] at hsel
    obtain ⟨m2, y2, x2, heq, hle, hall, hcase⟩ :=
      selectWorst_go_spec o w b ls (l * (dot w (o l w) + b)) l (o l w)
    rw [heq] at hsel
    simp only [Option.some.injEq, Prod.mk.injEq] at hsel
    obtain ⟨rfl, rfl, rfl⟩ := hsel
    rcases hcase with ⟨hm, hy, hx, hall0⟩ | ⟨pre, post, hls, hm, hx, hlt, hpre⟩
    · subst hy
      refine ⟨?_, hm, hx, [], ls, rfl, by simp⟩
      intro t ht
      rcases List.mem_cons.mp ht with h1 | h1
      · subst h1; exact le_of_eq hm
      · exact hall t h1
    · refine ⟨?_, hm, hx, l :: pre, post, by rw [hls]; rfl, ?_⟩
      · intro t ht
        rcases List.mem_cons.mp ht with h1 | h1
        · subst h1; exact hle
        · exact hall t h1
      · intro t ht
        rcases List.mem_cons.mp ht with h1 | h1
        · subst h1; exact hlt
        · exact hpre t h1

end CertML

namespace CertML

theorem dot_comm (x y : List ℚ) : dot x y = dot y x := by
  induction x generalizing y with
  | nil => cases y <;> simp [dot]
  | cons a xs ih =>
    cases y with
    | nil => simp [dot]
    | cons c ys =>
      simp only [dot, List.zipWith_cons_cons, List.sum_cons] at *
      rw [mul_comm, ih ys]

theorem selectWorst_margin_eq (o : ℚ → List ℚ → List ℚ) (w : List ℚ)
    (b : ℚ) (labels : List ℚ) (m y : ℚ) (x : List ℚ)
    (hsel : selectWorst o w b labels none = some (m, y, x)) :
    m = y * (dot w x + b) := by
  cases labels with
  | nil => simp [selectWorst] at hsel
  | cons l ls =>
    simp only [selectWorst] at hsel
    obtain ⟨m2, y2, x2, heq, hle, hall, hcase⟩ :=
      selectWorst_go_spec o w b ls (l * (dot w (o l w) + b)) l (o l w)
    rw [heq] at hsel
    simp only [Option.some.injEq, Prod.mk.injEq] at hsel
    obtain ⟨rfl, rfl, rfl⟩ := hsel
    rcases hcase with ⟨hm, hy, hx, hall0⟩ | ⟨pre, post, hls, hm, hx, hlt, hpre⟩
    · subst hy; rw [hx]; exact hm
    · rw [hx]; exact hm

/-- C4: the adversarial contribution enters the accumulated gradient exactly
when the selected worst margin is strictly below 1, in which case the clean
gradient is decremented by epsilon * worst_label * worst_x (and the bias
component by epsilon * worst_label); at a worst margin of 1 or more the
update uses the clean gradient unchanged and the adversarial hinge loss
recorded for the iteration is zero. -/
theorem C4_adversarial_fold (cfg : RDAConfig) (t : ℕ) (s : LegacyState)
    (m y : ℚ) (x : List ℚ)
    (hsel : selectWorst cfg.oracle s.w s.b cfg.labels none = some (m, y, x)) :
    ((legacyStep cfg t s).sum_of_grads_w =
        vsub s.sum_of_grads_w
          (if m < 1 then
              vsub (hinge_grad s.w s.b cfg.X cfg.Y).1 (vsmul (cfg.epsilon * y) x)
            else (hinge_grad s.w s.b cfg.X cfg.Y).1) ∧
      (legacyStep cfg t s).sum_of_grads_b =
        s.sum_of_grads_b -
          (if m < 1 then (hinge_grad s.w s.b cfg.X cfg.Y).2 - cfg.epsilon * y
            else (hinge_grad s.w s.b cfg.X cfg.Y).2)) ∧
    (1 ≤ m →
      (legacyStep cfg t s).sum_of_grads_w =
          vsub s.sum_of_grads_w (hinge_grad s.w s.b cfg.X cfg.Y).1 ∧
        (legacyStep cfg t s).sum_of_grads_b =
          s.sum_of_grads_b - (hinge_grad s.w s.b cfg.X cfg.Y).2 ∧
        hinge_loss_single s.w s.b x y = 0) := by
  have hM := selectWorst_margin_eq cfg.oracle s.w s.b cfg.labels m y x hsel
  refine ⟨⟨by simp only [legacyStep, hsel], by simp only [legacyStep, hsel]⟩, ?_⟩
  intro h1
  have hnot : ¬ m < 1 := not_lt.mpr h1
  refine ⟨by simp only [legacyStep, hsel, if_neg hnot],
    by simp only [legacyStep, hsel, if_neg hnot], ?_⟩
  have hx : y * (dot x s.w + s.b) = m := by rw [dot_comm x s.w, ← hM]
  have : 1 - y * (dot x s.w + s.b) ≤ 0 := by rw [hx]; linarith
  simp only [hinge_loss_single]
  exact max_eq_right this

theorem le_ratchet_if (lam cand : ℚ) :
    lam ≤ if cand > lam then cand else lam := by
  split
  · next hc => exact le_of_lt hc
  · exact le_refl _

theorem selectWorst_nonempty_some (o : ℚ → List ℚ → List ℚ) (w : List ℚ)
    (b : ℚ) (labels : List ℚ) (h : labels ≠ []) :
    ∃ trip, selectWorst o w b labels none = some trip := by
  cases labels with
  | nil => exact absurd rfl h
  | cons l ls => exact selectWorst_cons_some o w b l ls

/-- C3: current_lambda starts at 1 / learning_rate, never decreases from one
iteration to the next, and after every iteration of either loop the model is
exactly the rescaled gradient sum: w = sum_of_grads_w / current_lambda and
b = sum_of_grads_b / current_lambda.  The last conjunct states the same for
a successful iteration of the cert_rda loop of upper_bound.py. -/
theorem C3_lambda_ratchet (cfg : RDAConfig) (h : cfg.labels ≠ []) (t : ℕ)
    (ccfg : CertConfig) (ε : ℚ) (t2 : ℕ) (self : SelfState) (rs : CertState)
    (m y : ℚ) (x : List ℚ)
    (hsel : certSelect ccfg.oracle rs.w rs.b ccfg.labels none = some (m, y, x)) :
    ((legacyRunN cfg 0).current_lambda = 1 / cfg.learning_rate ∧
      (legacyRunN cfg t).current_lambda ≤ (legacyRunN cfg (t + 1)).current_lambda ∧
      (legacyRunN cfg (t + 1)).w =
        vdiv (legacyRunN cfg (t + 1)).sum_of_grads_w
          (legacyRunN cfg (t + 1)).current_lambda ∧
      (legacyRunN cfg (t + 1)).b =
        (legacyRunN cfg (t + 1)).sum_of_grads_b /
          (legacyRunN cfg (t + 1)).current_lambda) ∧
    ∃ self2 rs2, certStep ccfg ε t2 self rs = some (self2, rs2) ∧
      rs.current_lambda ≤ rs2.current_lambda ∧
      rs2.w = vdiv rs2.sum_of_grads_w rs2.current_lambda ∧
      rs2.b = rs2.sum_of_grads_b / rs2.current_lambda := by
  constructor
  · obtain ⟨⟨m1, y1, x1⟩, htrip⟩ :=
      selectWorst_nonempty_some cfg.oracle (legacyRunN cfg t).w
        (legacyRunN cfg t).b cfg.labels h
    rw [legacyRunN_succ]
    refine ⟨rfl, ?_, ?_, ?_⟩
    · simp only [legacyStep, htrip]
      exact le_ratchet_if _ _
    · simp only [legacyStep, htrip]
    · simp only [legacyStep, htrip]
  · have hsome : ∃ p2 : SelfState × CertState,
        certStep ccfg ε t2 self rs = some p2 := by
      simp only [certStep, hsel]
      exact ⟨_, rfl⟩
    obtain ⟨⟨self2, rs2⟩, hstep⟩ := hsome
    have hinv := hstep
    simp only [certStep, hsel, Option.some.injEq, Prod.mk.injEq] at hinv
    obtain ⟨h1, h2⟩ := hinv
    refine ⟨self2, rs2, hstep, ?_, ?_, ?_⟩
    · rw [← h2]; exact le_ratchet_if _ _
    · rw [← h2]
    · rw [← h2]

theorem legacy_eps0_best_step (cfg : RDAConfig) (h : cfg.epsilon = 0)
    (t : ℕ) (s : LegacyState)
    (hinv : s.best.map BestRecord.upper_bound = s.best.map BestRecord.good_loss) :
    (legacyStep cfg t s).best.map BestRecord.upper_bound =
      (legacyStep cfg t s).best.map BestRecord.good_loss := by
  unfold legacyStep
  cases hsel : selectWorst cfg.oracle s.w s.b cfg.labels none with
  | none => exact hinv
  | some trip =>
    obtain ⟨m, y, x⟩ := trip
    simp only
    split
    · simp [h]
    · exact hinv

theorem legacy_eps0_best (cfg : RDAConfig) (h : cfg.epsilon = 0) (n : ℕ) :
    (legacyRunN cfg n).best.map BestRecord.upper_bound =
      (legacyRunN cfg n).best.map BestRecord.good_loss := by
  induction n with
  | zero => rfl
  | succ n ih =>
    rw [legacyRunN_succ]
    exact legacy_eps0_best_step cfg h n (legacyRunN cfg n) ih

theorem cert_eps0_step (ccfg : CertConfig) (t : ℕ) (self self2 : SelfState)
    (rs rs2 : CertState) (hstep : certStep ccfg 0 t self rs = some (self2, rs2))
    (hinv : self.best_upper_bound = self.best_upper_good_loss) :
    self2.best_upper_bound = self2.best_upper_good_loss := by
  unfold certStep at hstep
  cases hsel : certSelect ccfg.oracle rs.w rs.b ccfg.labels none with
  | none => rw [hsel] at hstep; exact absurd hstep (by simp)
  | some trip =>
    obtain ⟨m, y, x⟩ := trip
    rw [hsel] at hstep
    simp only [Option.some.injEq, Prod.mk.injEq] at hstep
    obtain ⟨h1, h2⟩ := hstep
    rw [← h1]
    split
    · simp
    · exact hinv

theorem cert_eps0_go (ccfg : CertConfig) :
    ∀ (ts : List ℕ) (p : SelfState × CertState),
      p.1.best_upper_bound = p.1.best_upper_good_loss →
      (certGo ccfg 0 ts p).1.best_upper_bound =
        (certGo ccfg 0 ts p).1.best_upper_good_loss := by
  intro ts
  induction ts with
  | nil => exact fun p hp => hp
  | cons t ts ih =>
    intro p hp
    simp only [certGo]
    cases hstep : certStep ccfg 0 t p.1 p.2 with
    | none => exact hp
    | some p2 =>
      exact ih p2 (cert_eps0_step ccfg t p.1 p2.1 p.2 p2.2
        (by rw [hstep]) hp)

/-- C6: with epsilon = 0 the adversarial term of total_loss vanishes, so the
recorded best total loss always coincides with the recorded best clean loss:
in the legacy loop every recorded snapshot has upper_bound = good_loss, and
in a cert_rda run started on a fresh object the attributes
self.best_upper_bound and self.best_upper_good_loss stay equal. -/
theorem C6_epsilon_zero (cfg : RDAConfig) (h : cfg.epsilon = 0) (n : ℕ)
    (ccfg : CertConfig) (N : ℕ) (s : SelfState) (r : Option CertState)
    (hgo : certGo ccfg 0 (List.range N) (selfInit, certInit ccfg) = (s, r)) :
    (legacyRunN cfg n).best.map BestRecord.upper_bound =
      (legacyRunN cfg n).best.map BestRecord.good_loss ∧
    s.best_upper_bound = s.best_upper_good_loss := by
  refine ⟨legacy_eps0_best cfg h n, ?_⟩
  have := cert_eps0_go ccfg (List.range N) (selfInit, certInit ccfg) rfl
  rw [hgo] at this
  exact this

end CertML

namespace CertML

theorem certGo_append (cfg : CertConfig) (ε : ℚ) :
    ∀ (l1 l2 : List ℕ) (p : SelfState × CertState),
      certGo cfg ε (l1 ++ l2) p =
        match certGo cfg ε l1 p with
        | (s, none) => (s, none)
        | (s, some r) => certGo cfg ε l2 (s, r) := by
  intro l1
  induction l1 with
  | nil => intro l2 p; rfl
  | cons t ts ih =>
    intro l2 p
    simp only [List.cons_append, certGo]
    cases hstep : certStep cfg ε t p.1 p.2 with
    | none => rfl
    | some p2 => exact ih l2 p2

theorem certGo_range_none (cfg : CertConfig) (ε : ℚ) :
    ∀ (N : ℕ) (p : SelfState × CertState) (s : SelfState),
      certGo cfg ε (List.range N) p = (s, none) →
      ∃ t, t < N ∧ ∃ r, certGo cfg ε (List.range t) p = (s, some r) ∧
        certStep cfg ε t s r = none := by
  intro N
  induction N with
  | zero =>
    intro p s h
    simp only [List.range_zero, certGo, Prod.mk.injEq] at h
    exact absurd h.2 (by simp)
  | succ N ih =>
    intro p s h
    rw [List.range_succ, certGo_append] at h
    cases hN : certGo cfg ε (List.range N) p with
    | mk s1 o1 =>
      rw [hN] at h
      cases o1 with
      | none =>
        simp only [Prod.mk.injEq] at h
        obtain ⟨rfl, -⟩ := h
        obtain ⟨t, ht, r, hgo, hstep⟩ := ih p s1 hN
        exact ⟨t, Nat.lt_succ_of_lt ht, r, hgo, hstep⟩
      | some r1 =>
        simp only [certGo] at h
        cases hstep : certStep cfg ε N s1 r1 with
        | none =>
          rw [hstep] at h
          simp only [Prod.mk.injEq] at h
          obtain ⟨rfl, -⟩ := h
          exact ⟨N, Nat.lt_succ_self N, r1, hN, hstep⟩
        | some p2 =>
          rw [hstep] at h
          simp only [certGo, Prod.mk.injEq] at h
          exact absurd h.2 (by simp)

theorem certStep_inv (cfg : CertConfig) (ε : ℚ) (t : ℕ) (self : SelfState)
    (rs : CertState) (p2 : SelfState × CertState)
    (h : certStep cfg ε t self rs = some p2) :
    ∃ m y x, certSelect cfg.oracle rs.w rs.b cfg.labels none = some (m, y, x) ∧
      p2.2.x_bs = rs.x_bs.set t x ∧ p2.2.y_bs = rs.y_bs.set t y := by
  unfold certStep at h
  cases hsel : certSelect cfg.oracle rs.w rs.b cfg.labels none with
  | none => rw [hsel] at h; exact absurd h (by simp)
  | some trip =>
    obtain ⟨m, y, x⟩ := trip
    rw [hsel] at h
    simp only [Option.some.injEq] at h
    exact ⟨m, y, x, rfl, by rw [← h], by rw [← h]⟩

theorem certGo_trace (cfg : CertConfig) (ε : ℚ) :
    ∀ (N : ℕ) (p : SelfState × CertState) (s : SelfState) (r : CertState),
      certGo cfg ε (List.range N) p = (s, some r) →
      r.x_bs.length = p.2.x_bs.length ∧ r.y_bs.length = p.2.y_bs.length ∧
      ∀ t, t < N →
        ∃ st rst m y x,
          certGo cfg ε (List.range t) p = (st, some rst) ∧
          certSelect cfg.oracle rst.w rst.b cfg.labels none = some (m, y, x) ∧
          (t < p.2.x_bs.length → r.x_bs[t]? = some x) ∧
          (t < p.2.y_bs.length → r.y_bs[t]? = some y) := by
  intro N
  induction N with
  | zero =>
    intro p s r h
    simp only [List.range_zero, certGo, Prod.mk.injEq, Option.some.injEq] at h
    obtain ⟨-, rfl⟩ := h
    exact ⟨rfl, rfl, fun t ht => absurd ht (Nat.not_lt_zero t)⟩
  | succ N ih =>
    intro p s r h
    rw [List.range_succ, certGo_append] at h
    cases hN : certGo cfg ε (List.range N) p with
    | mk s1 o1 =>
      rw [hN] at h
      cases o1 with
      | none =>
        simp only [Prod.mk.injEq] at h
        exact absurd h.2 (by simp)
      | some r1 =>
        simp only [certGo] at h
        cases hstep : certStep cfg ε N s1 r1 with
        | none =>
          rw [hstep] at h
          simp only [Prod.mk.injEq] at h
          exact absurd h.2 (by simp)
        | some p2 =>
          rw [hstep] at h
          simp only [certGo, Prod.mk.injEq, Option.some.injEq] at h
          obtain ⟨h1, h2⟩ := h
          obtain ⟨hl1, hl2, hent⟩ := ih p s1 r1 hN
          obtain ⟨m, y, x, hsel, hx, hy⟩ :=
            certStep_inv cfg ε N s1 r1 p2 hstep
          have hrx : r.x_bs = r1.x_bs.set N x := by rw [← h2]; exact hx
          have hry : r.y_bs = r1.y_bs.set N y := by rw [← h2]; exact hy
          refine ⟨by rw [hrx, List.length_set]; exact hl1,
                  by rw [hry, List.length_set]; exact hl2, ?_⟩
          intro t ht
          rcases Nat.lt_succ_iff_lt_or_eq.mp ht with ht2 | rfl
          · obtain ⟨st, rst, m2, y2, x2, hgo2, hsel2, hx2, hy2⟩ := hent t ht2
            refine ⟨st, rst, m2, y2, x2, hgo2, hsel2, ?_, ?_⟩
            · intro hb
              rw [hrx, List.getElem?_set_ne (Nat.ne_of_gt ht2)]
              exact hx2 hb
            · intro hb
              rw [hry, List.getElem?_set_ne (Nat.ne_of_gt ht2)]
              exact hy2 hb
          · refine ⟨s1, r1, m, y, x, hN, hsel, ?_, ?_⟩
            · intro hb
              rw [hrx]
              exact List.getElem?_set_eq_of_lt x (hl1 ▸ hb)
            · intro hb
              rw [hry]
              exact List.getElem?_set_eq_of_lt y (hl2 ▸ hb)

/-- C8: when a cert_rda run completes, the stored candidate attack trace has
exactly max_iter feature rows and max_iter labels, and the entry at every
index t is exactly the worst-margin point and label selected at iteration t
(later iterations write only their own index, so entries are never
modified after being written). -/
theorem C8_trace_complete (cfg : CertConfig) (ε : ℚ) (s0 sf : SelfState)
    (tri : Option ℚ × Option ℚ × Option ℚ)
    (h : cert_rda cfg ε s0 = (sf, some tri)) :
    ∃ rsf : CertState, sf.x_c = some rsf.x_bs ∧ sf.y_c = some rsf.y_bs ∧
      rsf.x_bs.length = cfg.max_iter ∧ rsf.y_bs.length = cfg.max_iter ∧
      ∀ t, t < cfg.max_iter →
        ∃ st rst m y x,
          certGo cfg ε (List.range t) (s0, certInit cfg) = (st, some rst) ∧
          certSelect cfg.oracle rst.w rst.b cfg.labels none = some (m, y, x) ∧
          rsf.x_bs[t]? = some x ∧ rsf.y_bs[t]? = some y := by
  unfold cert_rda at h
  cases hgo : certGo cfg ε (List.range cfg.max_iter) (s0, certInit cfg) with
  | mk s o =>
    rw [hgo] at h
    cases o with
    | none =>
      simp only [Prod.mk.injEq] at h
      exact absurd h.2 (by simp)
    | some rs =>
      simp only [Prod.mk.injEq] at h
      obtain ⟨h1, -⟩ := h
      obtain ⟨hl1, hl2, hent⟩ :=
        certGo_trace cfg ε cfg.max_iter (s0, certInit cfg) s rs hgo
      have hinit : (certInit cfg).x_bs.length = cfg.max_iter := by
        simp [certInit]
      have hinit2 : (certInit cfg).y_bs.length = cfg.max_iter := by
        simp [certInit]
      refine ⟨rs, by rw [← h1], by rw [← h1],
        by rw [hl1, hinit], by rw [hl2, hinit2], ?_⟩
      intro t ht
      obtain ⟨st, rst, m, y, x, hgo2, hsel, hx, hy⟩ := hent t ht
      exact ⟨st, rst, m, y, x, hgo2, hsel,
        hx (by rw [hinit]; exact ht), hy (by rw [hinit2]; exact ht)⟩

/-- C7 amended: a cert_rda iteration sweep either completes, preserving the
full length of the preallocated trace, or aborts at some iteration t, in
which case the exposed object state is exactly the object state produced by
the first t completed iterations, with the partly updated
best_upper_* attributes observable on it. -/
theorem C7_amended_abort_state (cfg : CertConfig) (ε : ℚ) (N : ℕ)
    (p : SelfState × CertState) :
    (∀ s r, certGo cfg ε (List.range N) p = (s, some r) →
        r.x_bs.length = p.2.x_bs.length ∧ r.y_bs.length = p.2.y_bs.length) ∧
    (∀ s, certGo cfg ε (List.range N) p = (s, none) →
        ∃ t, t < N ∧ ∃ r, certGo cfg ε (List.range t) p = (s, some r) ∧
          certStep cfg ε t s r = none) := by
  constructor
  · intro s r h
    obtain ⟨h1, h2, -⟩ := certGo_trace cfg ε N p s r h
    exact ⟨h1, h2⟩
  · intro s h
    exact certGo_range_none cfg ε N p s h

end CertML

namespace CertML

/-- C1: the claim fails on UpperBound.cert_rda of upper_bound.py.  The local
variable best_upper_bound is never reassigned inside the loop, so the
comparison that guards the snapshot is always against the initial 10000
sentinel and the attributes are overwritten at every iteration whose total
loss is below 10000, not only at strict improvements.  On cfgC1 the run
records total loss 2 after iteration 0 and then overwrites it with the
strictly larger total loss 241 at iteration 1, while the legacy loop on the
same data keeps the minimum 2.  The intent (a running minimum) is clear from
the legacy implementation of the same algorithm and the 10000
initialisation; the migrated code dropped the local update. -/
theorem C1_best_record_not_minimum :
    (certGo cfgC1 1 (List.range 1) (selfInit, certInit cfgC1)).1.best_upper_bound
        = some 2 ∧
    (certGo cfgC1 1 (List.range 2) (selfInit, certInit cfgC1)).1.best_upper_bound
        = some 241 ∧
    (legacyRunN cfgC1L 2).best_upper_bound = 2 ∧
    ¬ (241 : ℚ) ≤ 2 := by
  refine ⟨?_, ?_, ?_, by norm_num⟩
  · norm_num [certGo, certStep, certSelect, certInit, selfInit, cfgC1,
      hinge_grad, hinge_loss, hinge_loss_single, goodAcc, dot, normSq,
      vadd, vsub, vsmul, vdiv, vzero, max_def, List.range_succ]
  · norm_num [certGo, certStep, certSelect, certInit, selfInit, cfgC1,
      hinge_grad, hinge_loss, hinge_loss_single, goodAcc, dot, normSq,
      vadd, vsub, vsmul, vdiv, vzero, max_def, List.range_succ]
  · norm_num [legacyRunN, legacyStep, legacyInit, selectWorst, cfgC1L,
      hinge_grad, hinge_loss, hinge_loss_single, goodAcc, dot, normSq,
      vadd, vsub, vsmul, vdiv, vzero, max_def, List.range_succ]

/-- C2: the claim fails on UpperBound.certify of upper_bound.py.  cert_rda
returns (self.best_upper_bound, self.best_upper_good_acc,
self.best_upper_bad_loss): the middle component collected by certify is the
clean accuracy, not the clean loss its docstring promises.  On cfgC2 the
recorded best clean loss is 1 while certify returns 0 (the accuracy) as the
middle component.  (The runs also share the self.best_upper_* attributes
across epsilons, a second violation of the claimed independence.) -/
theorem C2_certify_returns_accuracy :
    (certify cfgC2 [1] selfInit).2 = some [(some 2, some 0, some 1)] ∧
    (certify cfgC2 [1] selfInit).1.best_upper_good_loss = some 1 ∧
    (certify cfgC2 [1] selfInit).1.best_upper_good_acc = some 0 := by
  refine ⟨?_, ?_, ?_⟩ <;>
    norm_num [certify, cert_rda, certGo, certStep, certSelect, certInit,
      selfInit, cfgC2, cfgC1, hinge_grad, hinge_loss, hinge_loss_single,
      goodAcc, dot, normSq, vadd, vsub, vsmul, vdiv, vzero, max_def,
      List.range_succ]

/-- C7 counterexample: cert_rda is not atomic.  On cfgC7a the solver raises
at iteration 1 and the aborted call leaves self.best_upper_bound = 2 from
iteration 0 observable on the object; on cfgC7b the run completes all
iterations yet returns a completely unpopulated record (every total loss
stayed at or above the 10000 sentinel), so neither direction of the claimed
alternative holds. -/
theorem C7_not_atomic :
    (cert_rda cfgC7a 1 selfInit).2 = none ∧
    (cert_rda cfgC7a 1 selfInit).1.best_upper_bound = some 2 ∧
    (cert_rda cfgC7b 20000 selfInit).2 = some (none, none, none) ∧
    (cert_rda cfgC7b 20000 selfInit).1.best_upper_bound = none := by
  refine ⟨?_, ?_, ?_, ?_⟩ <;>
    norm_num [cert_rda, certGo, certStep, certSelect, certInit, selfInit,
      cfgC7a, cfgC7b, cfgC1, hinge_grad, hinge_loss, hinge_loss_single,
      goodAcc, dot, normSq, vadd, vsub, vsmul, vdiv, vzero, max_def,
      List.range_succ]

theorem C7_amended_abort_state_witness :
    ∃ t, t < 2 ∧ ∃ r,
      certGo cfgC7a 1 (List.range t) (selfInit, certInit cfgC7a) =
        ((certGo cfgC7a 1 (List.range 2) (selfInit, certInit cfgC7a)).1,
          some r) ∧
      certStep cfgC7a 1 t
        (certGo cfgC7a 1 (List.range 2) (selfInit, certInit cfgC7a)).1 r =
        none := by
  refine (C7_amended_abort_state cfgC7a 1 2 (selfInit, certInit cfgC7a)).2
    (certGo cfgC7a 1 (List.range 2) (selfInit, certInit cfgC7a)).1 ?_
  have h2 : (certGo cfgC7a 1 (List.range 2) (selfInit, certInit cfgC7a)).2
      = none := by
    norm_num [certGo, certStep, certSelect, certInit, selfInit, cfgC7a,
      cfgC1, hinge_grad, hinge_loss, hinge_loss_single, goodAcc, dot,
      normSq, vadd, vsub, vsmul, vdiv, vzero, max_def, List.range_succ]
  rw [← h2]

theorem C8_trace_complete_witness :
    ∃ rsf : CertState,
      (cert_rda cfgC2 1 selfInit).1.x_c = some rsf.x_bs ∧
      (cert_rda cfgC2 1 selfInit).1.y_c = some rsf.y_bs ∧
      rsf.x_bs.length = cfgC2.max_iter ∧ rsf.y_bs.length = cfgC2.max_iter ∧
      ∀ t, t < cfgC2.max_iter →
        ∃ st rst m y x,
          certGo cfgC2 1 (List.range t) (selfInit, certInit cfgC2) =
            (st, some rst) ∧
          certSelect cfgC2.oracle rst.w rst.b cfgC2.labels none =
            some (m, y, x) ∧
          rsf.x_bs[t]? = some x ∧ rsf.y_bs[t]? = some y := by
  refine C8_trace_complete cfgC2 1 selfInit (cert_rda cfgC2 1 selfInit).1
    (some 2, some 0, some 1) ?_
  have h2 : (cert_rda cfgC2 1 selfInit).2
      = some (some 2, some 0, some 1) := by
    norm_num [cert_rda, certGo, certStep, certSelect, certInit, selfInit,
      cfgC2, cfgC1, hinge_grad, hinge_loss, hinge_loss_single, goodAcc,
      dot, normSq, vadd, vsub, vsmul, vdiv, vzero, max_def, List.range_succ]
  rw [← h2]

theorem C3_lambda_ratchet_witness :
    ((legacyRunN cfgC1L 0).current_lambda = 1 / cfgC1L.learning_rate ∧
      (legacyRunN cfgC1L 0).current_lambda ≤
        (legacyRunN cfgC1L 1).current_lambda ∧
      (legacyRunN cfgC1L 1).w =
        vdiv (legacyRunN cfgC1L 1).sum_of_grads_w
          (legacyRunN cfgC1L 1).current_lambda ∧
      (legacyRunN cfgC1L 1).b =
        (legacyRunN cfgC1L 1).sum_of_grads_b /
          (legacyRunN cfgC1L 1).current_lambda) ∧
    ∃ self2 rs2, certStep cfgC2 1 0 selfInit (certInit cfgC2) =
        some (self2, rs2) ∧
      (certInit cfgC2).current_lambda ≤ rs2.current_lambda ∧
      rs2.w = vdiv rs2.sum_of_grads_w rs2.current_lambda ∧
      rs2.b = rs2.sum_of_grads_b / rs2.current_lambda := by
  refine C3_lambda_ratchet cfgC1L (by decide) 0 cfgC2 1 0 selfInit
    (certInit cfgC2) 0 1 [0] ?_
  norm_num [certSelect, certInit, cfgC2, cfgC1, dot, vzero]

theorem C4_adversarial_fold_witness :
    ((legacyStep cfgC1L 0 (legacyInit cfgC1L)).sum_of_grads_w =
        vsub (legacyInit cfgC1L).sum_of_grads_w
          (if (0 : ℚ) < 1 then
              vsub (hinge_grad (legacyInit cfgC1L).w (legacyInit cfgC1L).b
                  cfgC1L.X cfgC1L.Y).1 (vsmul (cfgC1L.epsilon * 1) [0])
            else (hinge_grad (legacyInit cfgC1L).w (legacyInit cfgC1L).b
                cfgC1L.X cfgC1L.Y).1) ∧
      (legacyStep cfgC1L 0 (legacyInit cfgC1L)).sum_of_grads_b =
        (legacyInit cfgC1L).sum_of_grads_b -
          (if (0 : ℚ) < 1 then
              (hinge_grad (legacyInit cfgC1L).w (legacyInit cfgC1L).b
                  cfgC1L.X cfgC1L.Y).2 - cfgC1L.epsilon * 1
            else (hinge_grad (legacyInit cfgC1L).w (legacyInit cfgC1L).b
                cfgC1L.X cfgC1L.Y).2)) ∧
    (1 ≤ (0 : ℚ) →
      (legacyStep cfgC1L 0 (legacyInit cfgC1L)).sum_of_grads_w =
          vsub (legacyInit cfgC1L).sum_of_grads_w
            (hinge_grad (legacyInit cfgC1L).w (legacyInit cfgC1L).b
              cfgC1L.X cfgC1L.Y).1 ∧
        (legacyStep cfgC1L 0 (legacyInit cfgC1L)).sum_of_grads_b =
          (legacyInit cfgC1L).sum_of_grads_b -
            (hinge_grad (legacyInit cfgC1L).w (legacyInit cfgC1L).b
              cfgC1L.X cfgC1L.Y).2 ∧
        hinge_loss_single (legacyInit cfgC1L).w (legacyInit cfgC1L).b [0] 1
          = 0) := by
  refine C4_adversarial_fold cfgC1L 0 (legacyInit cfgC1L) 0 1 [0] ?_
  norm_num [selectWorst, legacyInit, cfgC1L, dot, vzero]

theorem C5_first_minimal_margin_witness :
    (∀ z ∈ [(1 : ℚ), -1], (2 : ℚ) ≤ marginOf (fun y _ => [y]) [2] 0 z) ∧
      (2 : ℚ) = marginOf (fun y _ => [y]) [2] 0 1 ∧
      ([(1 : ℚ)] = (fun (y : ℚ) (_ : List ℚ) => [y]) 1 [2]) ∧
      ∃ pre post, [(1 : ℚ), -1] = pre ++ 1 :: post ∧
        ∀ z ∈ pre, (2 : ℚ) < marginOf (fun y _ => [y]) [2] 0 z := by
  refine C5_first_minimal_margin (fun y _ => [y]) [2] 0 [1, -1] 2 1 [1] ?_
  norm_num [selectWorst, dot]

theorem C6_epsilon_zero_witness :
    (legacyRunN cfgC6L 1).best.map BestRecord.upper_bound =
      (legacyRunN cfgC6L 1).best.map BestRecord.good_loss ∧
    (certGo cfgC2 0 (List.range 1) (selfInit, certInit cfgC2)).1.best_upper_bound
      = (certGo cfgC2 0 (List.range 1)
          (selfInit, certInit cfgC2)).1.best_upper_good_loss :=
  C6_epsilon_zero cfgC6L rfl 1 cfgC2 1
    (certGo cfgC2 0 (List.range 1) (selfInit, certInit cfgC2)).1
    (certGo cfgC2 0 (List.range 1) (selfInit, certInit cfgC2)).2 rfl

end CertML

namespace CertML

/-- C10: under the np.random.choice contract (the draw returns
round(epsilon * n) distinct indices below num_iter), the sampler selects
exactly round(epsilon * n) distinct trace indices, each at least
num_iter_to_throw_out and within the trace, and returns the clean rows
unchanged followed by exactly the selected poisoned rows, with idx_train
and idx_poison delimiting the two contiguous ranges. -/
theorem C10_sampler_shape (choice : ℕ → ℕ → List ℕ)
    (X_train : List (List ℚ)) (Y_train : List ℚ)
    (x_bs : List (List ℚ)) (y_bs : List ℚ) (ε : ℚ) (throw : ℕ)
    (hlen : (choice (x_bs.length - throw)
        ((npRound (ε * (X_train.length : ℚ))).toNat)).length =
      (npRound (ε * (X_train.length : ℚ))).toNat)
    (hnodup : (choice (x_bs.length - throw)
        ((npRound (ε * (X_train.length : ℚ))).toNat)).Nodup)
    (hmem : ∀ i ∈ choice (x_bs.length - throw)
        ((npRound (ε * (X_train.length : ℚ))).toNat),
        i < x_bs.length - throw) :
    (chosenIdx choice x_bs.length throw
        ((npRound (ε * (X_train.length : ℚ))).toNat)).length =
      (npRound (ε * (X_train.length : ℚ))).toNat ∧
    (chosenIdx choice x_bs.length throw
        ((npRound (ε * (X_train.length : ℚ))).toNat)).Nodup ∧
    (∀ i ∈ chosenIdx choice x_bs.length throw
        ((npRound (ε * (X_train.length : ℚ))).toNat),
        throw ≤ i ∧ i < x_bs.length) ∧
    (sample_lower_bound_attack choice X_train Y_train x_bs y_bs ε throw).1 =
      X_train ++ (chosenIdx choice x_bs.length throw
        ((npRound (ε * (X_train.length : ℚ))).toNat)).map
          (fun i => x_bs.getD i []) ∧
    (sample_lower_bound_attack choice X_train Y_train x_bs y_bs ε
        throw).1.take X_train.length = X_train ∧
    (sample_lower_bound_attack choice X_train Y_train x_bs y_bs ε
        throw).1.drop X_train.length =
      (chosenIdx choice x_bs.length throw
        ((npRound (ε * (X_train.length : ℚ))).toNat)).map
          (fun i => x_bs.getD i []) ∧
    (sample_lower_bound_attack choice X_train Y_train x_bs y_bs ε
        throw).2.1 =
      Y_train ++ (chosenIdx choice x_bs.length throw
        ((npRound (ε * (X_train.length : ℚ))).toNat)).map
          (fun i => y_bs.getD i 0) ∧
    (sample_lower_bound_attack choice X_train Y_train x_bs y_bs ε
        throw).2.2.1 = (0, X_train.length) ∧
    (sample_lower_bound_attack choice X_train Y_train x_bs y_bs ε
        throw).2.2.2 =
      (X_train.length,
        X_train.length + (npRound (ε * (X_train.length : ℚ))).toNat) := by
  refine ⟨?_, ?_, ?_, rfl, ?_, ?_, rfl, rfl, ?_⟩
  · simp [chosenIdx, hlen]
  · exact hnodup.map (add_left_injective throw)
  · intro i hi
    simp only [chosenIdx, List.mem_map] at hi
    obtain ⟨c, hc, rfl⟩ := hi
    have hc2 := hmem c hc
    exact ⟨Nat.le_add_left throw c, by omega⟩
  · exact List.take_left X_train _
  · exact List.drop_left X_train _
  · simp [sample_lower_bound_attack, hlen]

theorem C10_sampler_shape_witness :
    (chosenIdx (fun _ _ => [0]) 2 1
        ((npRound ((1 : ℚ) * (([[(1 : ℚ)]] : List (List ℚ)).length : ℚ))).toNat)).length =
      (npRound ((1 : ℚ) * (([[(1 : ℚ)]] : List (List ℚ)).length : ℚ))).toNat ∧
    (chosenIdx (fun _ _ => [0]) 2 1
        ((npRound ((1 : ℚ) * (([[(1 : ℚ)]] : List (List ℚ)).length : ℚ))).toNat)).Nodup ∧
    (∀ i ∈ chosenIdx (fun _ _ => [0]) 2 1
        ((npRound ((1 : ℚ) * (([[(1 : ℚ)]] : List (List ℚ)).length : ℚ))).toNat),
        1 ≤ i ∧ i < 2) ∧
    (sample_lower_bound_attack (fun _ _ => [0]) [[(1 : ℚ)]] [1]
        [[5], [6]] [1, -1] 1 1).1 =
      [[(1 : ℚ)]] ++ (chosenIdx (fun _ _ => [0]) 2 1
        ((npRound ((1 : ℚ) * (([[(1 : ℚ)]] : List (List ℚ)).length : ℚ))).toNat)).map
          (fun i => ([[(5 : ℚ)], [6]] : List (List ℚ)).getD i []) ∧
    (sample_lower_bound_attack (fun _ _ => [0]) [[(1 : ℚ)]] [1]
        [[5], [6]] [1, -1] 1 1).1.take 1 = [[(1 : ℚ)]] ∧
    (sample_lower_bound_attack (fun _ _ => [0]) [[(1 : ℚ)]] [1]
        [[5], [6]] [1, -1] 1 1).1.drop 1 =
      (chosenIdx (fun _ _ => [0]) 2 1
        ((npRound ((1 : ℚ) * (([[(1 : ℚ)]] : List (List ℚ)).length : ℚ))).toNat)).map
          (fun i => ([[(5 : ℚ)], [6]] : List (List ℚ)).getD i []) ∧
    (sample_lower_bound_attack (fun _ _ => [0]) [[(1 : ℚ)]] [1]
        [[5], [6]] [1, -1] 1 1).2.1 =
      [(1 : ℚ)] ++ (chosenIdx (fun _ _ => [0]) 2 1
        ((npRound ((1 : ℚ) * (([[(1 : ℚ)]] : List (List ℚ)).length : ℚ))).toNat)).map
          (fun i => ([(1 : ℚ), -1] : List ℚ).getD i 0) ∧
    (sample_lower_bound_attack (fun _ _ => [0]) [[(1 : ℚ)]] [1]
        [[5], [6]] [1, -1] 1 1).2.2.1 = (0, 1) ∧
    (sample_lower_bound_attack (fun _ _ => [0]) [[(1 : ℚ)]] [1]
        [[5], [6]] [1, -1] 1 1).2.2.2 =
      (1, 1 + (npRound ((1 : ℚ) * (([[(1 : ℚ)]] : List (List ℚ)).length : ℚ))).toNat) :=
  C10_sampler_shape (fun _ _ => [0]) [[(1 : ℚ)]] [1] [[5], [6]] [1, -1] 1 1
    (by norm_num [npRound]) (by simp) (by norm_num [npRound])

end CertML

namespace CertML

theorem vsumR_nil {n : ℕ} : vsumR ([] : List (Rvec n)) = rzero := rfl

theorem vsumR_cons {n : ℕ} (a : Rvec n) (l : List (Rvec n)) :
    vsumR (a :: l) = radd a (vsumR l) := rfl

theorem rdot_rzero_right {n : ℕ} (p : Rvec n) : rdot p rzero = 0 := by
  simp [rdot, rzero]

theorem rdot_radd_right {n : ℕ} (p u v : Rvec n) :
    rdot p (radd u v) = rdot p u + rdot p v := by
  simp [rdot, radd, mul_add, Finset.sum_add_distrib]

theorem rdot_rsub_right {n : ℕ} (p u v : Rvec n) :
    rdot p (rsub u v) = rdot p u - rdot p v := by
  simp [rdot, rsub, mul_sub, Finset.sum_sub_distrib]

theorem rdot_rsmul_right {n : ℕ} (p : Rvec n) (c : ℝ) (u : Rvec n) :
    rdot p (rsmul c u) = c * rdot p u := by
  unfold rdot rsmul
  rw [Finset.mul_sum]
  exact Finset.sum_congr rfl (fun i _ => by ring)

theorem rdot_rsmul_left {n : ℕ} (c : ℝ) (u v : Rvec n) :
    rdot (rsmul c u) v = c * rdot u v := by
  unfold rdot rsmul
  rw [Finset.mul_sum]
  exact Finset.sum_congr rfl (fun i _ => by ring)

theorem rdot_comm {n : ℕ} (u v : Rvec n) : rdot u v = rdot v u := by
  unfold rdot
  exact Finset.sum_congr rfl (fun i _ => mul_comm _ _)

theorem rdot_self_nonneg {n : ℕ} (u : Rvec n) : 0 ≤ rdot u u :=
  Finset.sum_nonneg fun i _ => mul_self_nonneg (u i)

theorem rdot_self_eq_zero {n : ℕ} (u : Rvec n) :
    rdot u u = 0 ↔ u = rzero := by
  constructor
  · intro h
    funext i
    have h2 := (Finset.sum_eq_zero_iff_of_nonneg
      (fun i _ => mul_self_nonneg (u i))).mp h i (Finset.mem_univ i)
    exact mul_self_eq_zero.mp h2
  · intro h
    rw [h]
    simp [rdot, rzero]

theorem rdot_vsumR {n : ℕ} (p : Rvec n) (l : List (Rvec n)) :
    rdot p (vsumR l) = (l.map (fun q => rdot p q)).sum := by
  induction l with
  | nil => simp [vsumR_nil, rdot_rzero_right]
  | cons a l ih => rw [vsumR_cons, rdot_radd_right, List.map_cons,
      List.sum_cons, ih]

theorem rdot_proj_sum {n : ℕ} :
    ∀ acc : List (Rvec n), (∀ u ∈ acc, rdot u u = 1) →
      acc.Pairwise (fun u v => rdot u v = 0) →
      ∀ p ∈ acc, ∀ v,
        rdot p (vsumR (acc.map (fun q => rsmul (rdot q v) q))) = rdot p v := by
  intro acc
  induction acc with
  | nil => simp
  | cons a l ih =>
    intro hunit hpair p hp v
    rw [List.map_cons, vsumR_cons, rdot_radd_right, rdot_rsmul_right]
    rcases List.mem_cons.mp hp with rfl | hp2
    · have ha : rdot p p = 1 := hunit p (List.mem_cons_self _ _)
      have hrest : rdot p (vsumR (l.map (fun q => rsmul (rdot q v) q))) = 0 := by
        rw [rdot_vsumR]
        apply List.sum_eq_zero
        intro z hz
        simp only [List.map_map, List.mem_map, Function.comp] at hz
        obtain ⟨q, hq, rfl⟩ := hz
        rw [rdot_rsmul_right, (List.pairwise_cons.mp hpair).1 q hq, mul_zero]
      rw [ha, hrest, mul_one, add_zero]
    · have ha : rdot p a = 0 := by
        rw [rdot_comm]
        exact (List.pairwise_cons.mp hpair).1 p hp2
      rw [ha, mul_zero, zero_add]
      exact ih (fun u hu => hunit u (List.mem_cons_of_mem _ hu))
        (List.pairwise_cons.mp hpair).2 p hp2 v

theorem rdot_gsOrth_zero {n : ℕ} (acc : List (Rvec n))
    (h1 : ∀ u ∈ acc, rdot u u = 1)
    (h2 : acc.Pairwise (fun u v => rdot u v = 0))
    (p : Rvec n) (hp : p ∈ acc) (v : Rvec n) :
    rdot p (gsOrth acc v) = 0 := by
  unfold gsOrth
  rw [rdot_rsub_right, rdot_proj_sum acc h1 h2 p hp v, sub_self]

theorem rnormalize_unit {n : ℕ} (u : Rvec n) (h : u ≠ rzero) :
    rdot (rnormalize u) (rnormalize u) = 1 := by
  have hd0 : rdot u u ≠ 0 := fun hc => h ((rdot_self_eq_zero u).mp hc)
  have hd : 0 < rdot u u :=
    lt_of_le_of_ne (rdot_self_nonneg u) (Ne.symm hd0)
  unfold rnormalize
  rw [rdot_rsmul_left, rdot_rsmul_right, ← mul_assoc, ← mul_inv,
    Real.mul_self_sqrt (le_of_lt hd)]
  exact inv_mul_cancel₀ hd0

theorem rnormalize_orth {n : ℕ} (p u : Rvec n) (h : rdot p u = 0) :
    rdot p (rnormalize u) = 0 := by
  unfold rnormalize
  rw [rdot_rsmul_right, h, mul_zero]

theorem OrthoRows_nil {n : ℕ} : OrthoRows ([] : List (Rvec n)) :=
  ⟨by simp, List.Pairwise.nil⟩

theorem OrthoRows_orthAppend {n : ℕ} (acc : List (Rvec n)) (v : Rvec n)
    (h : OrthoRows acc) : OrthoRows (orthAppend acc v) := by
  unfold orthAppend
  split
  · exact h
  · next hne =>
    obtain ⟨h1, h2⟩ := h
    constructor
    · intro u hu
      rcases List.mem_append.mp hu with hu1 | hu2
      · exact h1 u hu1
      · rw [List.mem_singleton.mp hu2]
        exact rnormalize_unit _ hne
    · rw [List.pairwise_append]
      refine ⟨h2, List.pairwise_singleton _ _, ?_⟩
      intro p hp q hq
      rw [List.mem_singleton.mp hq]
      exact rnormalize_orth p _ (rdot_gsOrth_zero acc h1 h2 p hp v)

theorem OrthoRows_foldl {n : ℕ} (vs : List (Rvec n)) :
    ∀ acc, OrthoRows acc → OrthoRows (vs.foldl orthAppend acc) := by
  induction vs with
  | nil => exact fun acc h => h
  | cons v vs ih =>
    intro acc h
    exact ih (orthAppend acc v) (OrthoRows_orthAppend acc v h)

theorem OrthoRows_orthModel {n : ℕ} (vs : List (Rvec n)) :
    OrthoRows (orthModel vs) :=
  OrthoRows_foldl vs [] OrthoRows_nil

theorem orthAppend_length_le {n : ℕ} (acc : List (Rvec n)) (v : Rvec n) :
    (orthAppend acc v).length ≤ acc.length + 1 := by
  unfold orthAppend
  split
  · exact Nat.le_succ _
  · simp

theorem foldl_orthAppend_length {n : ℕ} (vs : List (Rvec n)) :
    ∀ acc, (vs.foldl orthAppend acc).length ≤ acc.length + vs.length := by
  induction vs with
  | nil => simp
  | cons v vs ih =>
    intro acc
    calc (List.foldl orthAppend (orthAppend acc v) vs).length
        ≤ (orthAppend acc v).length + vs.length := ih _
      _ ≤ acc.length + 1 + vs.length :=
          Nat.add_le_add_right (orthAppend_length_le acc v) _
      _ = acc.length + (v :: vs).length := by simp; omega

theorem orthModel_length {n : ℕ} (vs : List (Rvec n)) :
    (orthModel vs).length ≤ vs.length := by
  have := foldl_orthAppend_length vs ([] : List (Rvec n))
  simpa [orthModel] using this

theorem gpGo_spec {n : ℕ} (rand : ℕ → Rvec n) :
    ∀ (fuel k : ℕ) (P Q : List (Rvec n)), OrthoRows P → P.length ≤ 3 →
      gpGo rand fuel k P = some Q → Q.length = 3 ∧ OrthoRows Q := by
  intro fuel
  induction fuel with
  | zero =>
    intro k P Q hO hlen h
    simp only [gpGo] at h
    split at h
    · next h3 =>
      obtain rfl := Option.some.inj h
      exact ⟨le_antisymm hlen h3, hO⟩
    · cases h
  | succ f ih =>
    intro k P Q hO hlen h
    simp only [gpGo] at h
    split at h
    · next h3 =>
      obtain rfl := Option.some.inj h
      exact ⟨le_antisymm hlen h3, hO⟩
    · next h3 =>
      refine ih (k + 1) _ Q (OrthoRows_orthModel _) ?_ h
      calc (orthModel (P ++ [rand k])).length
          ≤ (P ++ [rand k]).length := orthModel_length _
        _ = P.length + 1 := by simp
        _ ≤ 3 := by omega

/-- C9 amended: whenever get_projection_matrix returns (which, because the
padding draws are external randomness, is not guaranteed for every input:
the degenerate all-zero input with degenerate draws, or any feature
dimension below 3, never returns), the returned matrix has exactly 3 rows
that are mutually orthogonal unit vectors. -/
theorem C9_projection_rows (n : ℕ) (rand : ℕ → Rvec n) (fuel : ℕ)
    (w c cv : Rvec n) (P : List (Rvec n))
    (h : get_projection_matrix rand fuel w c cv = some P) :
    P.length = 3 ∧ (∀ u ∈ P, rdot u u = 1) ∧
      P.Pairwise (fun u v => rdot u v = 0) := by
  unfold get_projection_matrix at h
  obtain ⟨hlen, hO⟩ := gpGo_spec rand fuel 0 (orthModel [w, c, cv]) P
    (OrthoRows_orthModel _)
    (le_trans (orthModel_length _) (by simp)) h
  exact ⟨hlen, hO.1, hO.2⟩

theorem gsOrth_nil_rzero {n : ℕ} : gsOrth ([] : List (Rvec n)) rzero = rzero := by
  funext i
  simp [gsOrth, rsub, vsumR, rzero]

theorem orthAppend_nil_rzero {n : ℕ} :
    orthAppend ([] : List (Rvec n)) rzero = [] := by
  unfold orthAppend
  rw [if_pos gsOrth_nil_rzero]

theorem orthModel_rzero3 :
    orthModel [(rzero : Rvec 1), rzero, rzero] = [] := by
  unfold orthModel
  rw [List.foldl_cons, orthAppend_nil_rzero, List.foldl_cons,
    orthAppend_nil_rzero, List.foldl_cons, orthAppend_nil_rzero,
    List.foldl_nil]

theorem orthModel_rzero1 : orthModel [(rzero : Rvec 1)] = [] := by
  unfold orthModel
  rw [List.foldl_cons, orthAppend_nil_rzero, List.foldl_nil]

theorem gpGo_rzero :
    ∀ fuel k, gpGo (fun _ => (rzero : Rvec 1)) fuel k [] = none := by
  intro fuel
  induction fuel with
  | zero => intro k; simp [gpGo]
  | succ f ih =>
    intro k
    simp only [gpGo, List.length_nil]
    rw [if_neg (by omega), List.nil_append, orthModel_rzero1]
    exact ih (k + 1)

/-- C9 counterexample: at the all-zero degenerate input singled out by the
claim, with the random padding stream degenerate as well (the spec itself
notes the padding is non-deterministic), the while-loop never produces 3
rows, so get_projection_matrix does not terminate: the claimed universal
termination is false. -/
theorem C9_degenerate_never_returns : gpNeverReturns := by
  intro fuel
  unfold get_projection_matrix
  rw [orthModel_rzero3]
  exact gpGo_rzero fuel 0

end CertML

namespace CertML

theorem rzero_apply {n : ℕ} (i : Fin n) : (rzero : Rvec n) i = 0 := rfl

theorem rsmul_apply {n : ℕ} (c : ℝ) (u : Rvec n) (i : Fin n) :
    rsmul c u i = c * u i := rfl

theorem vsumR_nil_apply {n : ℕ} (i : Fin n) :
    vsumR ([] : List (Rvec n)) i = 0 := rfl

theorem vsumR_cons_apply {n : ℕ} (a : Rvec n) (l : List (Rvec n)) (i : Fin n) :
    vsumR (a :: l) i = a i + vsumR l i := rfl

theorem rnormalize_apply {n : ℕ} (u : Rvec n) (i : Fin n) :
    rnormalize u i = (Real.sqrt (rdot u u))⁻¹ * u i := rfl

theorem gsOrth_apply {n : ℕ} (acc : List (Rvec n)) (v : Rvec n) (i : Fin n) :
    gsOrth acc v i =
      v i - vsumR (acc.map (fun p => rsmul (rdot p v) p)) i := rfl

theorem C9_projection_rows_witness :
    ∃ P : List (Rvec 3),
      get_projection_matrix (fun _ => rzero) 0 e0R e1R e2R = some P ∧
      P.length = 3 ∧ (∀ u ∈ P, rdot u u = 1) ∧
      P.Pairwise (fun u v => rdot u v = 0) := by
  have e0at0 : e0R 0 = 1 := rfl
  have e0at1 : e0R 1 = 0 := rfl
  have e0at2 : e0R 2 = 0 := rfl
  have e1at1 : e1R 1 = 1 := rfl
  have e1at2 : e1R 2 = 0 := rfl
  have e2at2 : e2R 2 = 1 := rfl
  have h1ne : gsOrth ([] : List (Rvec 3)) e0R ≠ rzero := by
    intro hc
    have h0 : gsOrth ([] : List (Rvec 3)) e0R (0 : Fin 3)
        = rzero (0 : Fin 3) := by rw [hc]
    simp only [gsOrth_apply, List.map_nil, vsumR_nil_apply, rzero_apply,
      e0at0] at h0
    norm_num at h0
  have hA1 : orthAppend ([] : List (Rvec 3)) e0R =
      [rnormalize (gsOrth [] e0R)] := by
    unfold orthAppend
    rw [if_neg h1ne]
    rfl
  have hp1at1 : rnormalize (gsOrth ([] : List (Rvec 3)) e0R) (1 : Fin 3) = 0 := by
    simp only [rnormalize_apply, gsOrth_apply, List.map_nil, vsumR_nil_apply,
      e0at1]
    norm_num
  have hp1at2 : rnormalize (gsOrth ([] : List (Rvec 3)) e0R) (2 : Fin 3) = 0 := by
    simp only [rnormalize_apply, gsOrth_apply, List.map_nil, vsumR_nil_apply,
      e0at2]
    norm_num
  have h2ne : gsOrth [rnormalize (gsOrth ([] : List (Rvec 3)) e0R)] e1R
      ≠ rzero := by
    intro hc
    have h1 : gsOrth [rnormalize (gsOrth ([] : List (Rvec 3)) e0R)] e1R
        (1 : Fin 3) = rzero (1 : Fin 3) := by rw [hc]
    simp only [gsOrth_apply, List.map_cons, List.map_nil, vsumR_cons_apply,
      vsumR_nil_apply, rsmul_apply, rzero_apply, e1at1, hp1at1] at h1
    norm_num at h1
  have hA2 : orthAppend [rnormalize (gsOrth ([] : List (Rvec 3)) e0R)] e1R =
      [rnormalize (gsOrth [] e0R),
       rnormalize (gsOrth [rnormalize (gsOrth [] e0R)] e1R)] := by
    unfold orthAppend
    rw [if_neg h2ne]
    rfl
  have hp2at2 : rnormalize (gsOrth [rnormalize
      (gsOrth ([] : List (Rvec 3)) e0R)] e1R) (2 : Fin 3) = 0 := by
    rw [rnormalize_apply]
    simp only [gsOrth_apply, List.map_cons, List.map_nil, vsumR_cons_apply,
      vsumR_nil_apply, rsmul_apply, e1at2, hp1at2]
    norm_num
  have h3ne : gsOrth [rnormalize (gsOrth ([] : List (Rvec 3)) e0R),
      rnormalize (gsOrth [rnormalize (gsOrth [] e0R)] e1R)] e2R ≠ rzero := by
    intro hc
    have h2 : gsOrth [rnormalize (gsOrth ([] : List (Rvec 3)) e0R),
        rnormalize (gsOrth [rnormalize (gsOrth [] e0R)] e1R)] e2R (2 : Fin 3)
        = rzero (2 : Fin 3) := by rw [hc]
    simp only [gsOrth_apply, List.map_cons, List.map_nil, vsumR_cons_apply,
      vsumR_nil_apply, rsmul_apply, rzero_apply, e2at2, hp1at2, hp2at2] at h2
    norm_num at h2
  have hA3 : orthAppend [rnormalize (gsOrth ([] : List (Rvec 3)) e0R),
      rnormalize (gsOrth [rnormalize (gsOrth [] e0R)] e1R)] e2R =
      [rnormalize (gsOrth [] e0R),
       rnormalize (gsOrth [rnormalize (gsOrth [] e0R)] e1R),
       rnormalize (gsOrth [rnormalize (gsOrth [] e0R),
         rnormalize (gsOrth [rnormalize (gsOrth [] e0R)] e1R)] e2R)] := by
    unfold orthAppend
    rw [if_neg h3ne]
    rfl
  have hM : orthModel [e0R, e1R, e2R] =
      [rnormalize (gsOrth [] e0R),
       rnormalize (gsOrth [rnormalize (gsOrth [] e0R)] e1R),
       rnormalize (gsOrth [rnormalize (gsOrth [] e0R),
         rnormalize (gsOrth [rnormalize (gsOrth [] e0R)] e1R)] e2R)] := by
    unfold orthModel
    rw [List.foldl_cons, hA1, List.foldl_cons, hA2, List.foldl_cons, hA3,
      List.foldl_nil]
  have hGP : get_projection_matrix (fun _ => rzero) 0 e0R e1R e2R =
      some [rnormalize (gsOrth [] e0R),
        rnormalize (gsOrth [rnormalize (gsOrth [] e0R)] e1R),
        rnormalize (gsOrth [rnormalize (gsOrth [] e0R),
          rnormalize (gsOrth [rnormalize (gsOrth [] e0R)] e1R)] e2R)] := by
    unfold get_projection_matrix
    rw [hM]
    simp [gpGo]
  exact ⟨_, hGP, C9_projection_rows 3 (fun _ => rzero) 0 e0R e1R e2R _ hGP⟩

end CertML
